import Mathlib

set_option linter.unusedVariables false

/-!
Verification development for the Nexa full-node data-retrieval scripts
(`fetch_data_blocks_transactions.py`, `process_data.py`, `connection_test.py`).

The fetch side talks to an external CLI binary through `subprocess`; we model
one CLI invocation by its observable outcome (`CLIResult`) and the whole node
by an environment of such outcomes (`NexaEnv`).  The worker-pool loops of
`get_latest_n_blocks` / `get_all_transactions` process completed futures in a
nondeterministic completion order; we model that order as an explicit list
parameter, constrained to be a permutation of the submitted work in the
theorems.  Python runtime faults that the scripts can hit (calling a method on
`None`, `in` on `None`, indexing an empty list) are modelled as `PyErr`
values in an `Except` monad, mirroring how an uncaught exception aborts the
surrounding call.
-/

/-- Observable outcome of one `subprocess.run` invocation: captured stdout and
stderr text, and whether the invocation itself raised an exception. -/
structure CLIResult where
  stdout : String
  stderr : String
  exc : Bool
deriving DecidableEq, Repr

/-- Python's `str.strip()`: drop whitespace from both ends.  Defined by
structural recursion over the character list so that the kernel can evaluate
it on concrete inputs. -/
def pyStrip (s : String) : String :=
  ⟨((s.data.dropWhile Char.isWhitespace).reverse.dropWhile
      Char.isWhitespace).reverse⟩

/-- `NexaCLI.run_command`: returns `result.stdout.strip()` when stdout is
non-empty, `""` (after logging) when only stderr is non-empty, and `""` when
`subprocess.run` raised.  When the process produced neither stdout nor stderr
the Python function falls off the end of the `if`/`elif` chain and returns
`None`; we model that as `none`, and a present string as `some`. -/
def run_command (r : CLIResult) : Option String :=
  if r.exc then some "" else
  if r.stdout ≠ "" then some (pyStrip r.stdout)
  else if r.stderr ≠ "" then some "" else none

/-- Python runtime faults the fetch scripts can raise: `AttributeError`
(method call on `None`), `TypeError` (`json.loads(None)` or `in` on `None`),
`IndexError` (`list({}.keys())[0]` in the progress print). -/
inductive PyErr where
  | attrErr
  | typeErr
  | indexErr
deriving DecidableEq, Repr

instance {ε α : Type _} [DecidableEq ε] [DecidableEq α] :
    DecidableEq (Except ε α) := fun a b =>
  match a, b with
  | .error e, .error f =>
    if h : e = f then .isTrue (by rw [h])
    else .isFalse (fun hh => by cases hh; exact h rfl)
  | .ok x, .ok y =>
    if h : x = y then .isTrue (by rw [h])
    else .isFalse (fun hh => by cases hh; exact h rfl)
  | .error _, .ok _ => .isFalse (fun hh => by cases hh)
  | .ok _, .error _ => .isFalse (fun hh => by cases hh)

/-- The part of a parsed `getblock <hash> 1` JSON object that the fetch
script consults: the declared transaction count and the list of contained
transaction ids (`block_data.get('txid', [])`). -/
structure BlockJson where
  txcount : Nat
  txid : List String
deriving DecidableEq, Repr

/-- A parsed `getrawtransaction <txid> 1` JSON object; the fetch script never
inspects its fields, so we carry it opaquely as its payload text. -/
structure TxJson where
  payload : String
deriving DecidableEq, Repr

/-- The external world as seen by the fetch script: the CLI outcome of each
RPC command, and `json.loads` on the block / transaction detail outputs
(`none` models a `json.JSONDecodeError`). -/
structure NexaEnv where
  countRes : CLIResult
  hashRes : Int → CLIResult
  blockRes : String → CLIResult
  txRes : String → CLIResult
  parseBlock : String → Option BlockJson
  parseTx : String → Option TxJson

/-- Python's `str.isdigit` on ASCII text: non-empty and all digit characters. -/
def pyIsdigit (s : String) : Bool :=
  decide (s.data ≠ []) && s.data.all Char.isDigit

/-- Python's `int(...)` on a string that passed `isdigit`: decimal value of
the digit characters. -/
def pyInt (s : String) : Nat :=
  s.data.foldl (fun a c => 10 * a + (c.toNat - 48)) 0

/-- `get_latest_block_height`: run `getblockcount`; if the output is a digit
string return it as an integer, otherwise log and return `None` (our
`Except.ok none`).  If `run_command` returned Python `None`, the call
`output.isdigit()` raises `AttributeError`. -/
def get_latest_block_height (env : NexaEnv) : Except PyErr (Option Nat) :=
  match run_command env.countRes with
  | none => .error .attrErr
  | some out =>
    if pyIsdigit out then .ok (some (pyInt (pyStrip out))) else .ok none

/-- `get_block_data`: resolve height to hash (`.strip()` on a `None` result
raises `AttributeError`), soft-return `{}` (our `ok none`) on an empty hash,
then fetch and parse the block detail; `json.loads(None)` raises `TypeError`,
a `JSONDecodeError` is caught and yields `{}`, and success yields the
singleton mapping `{block_height: block_data}`. -/
def get_block_data (env : NexaEnv) (block_height : Int) :
    Except PyErr (Option (Int × BlockJson)) :=
  match run_command (env.hashRes block_height) with
  | none => .error .attrErr
  | some s =>
    let block_hash := pyStrip s
    if block_hash = "" then .ok none
    else
      match run_command (env.blockRes block_hash) with
      | none => .error .typeErr
      | some out =>
        match env.parseBlock out with
        | none => .ok none
        | some j => .ok (some (block_height, j))

/-- Python `dict.update` with the optional singleton result of one
`get_block_data` call: replacement keeps the key's position, a new key is
appended. -/
def dictUpdate (d : List (Int × BlockJson)) :
    Option (Int × BlockJson) → List (Int × BlockJson)
  | none => d
  | some kv =>
    if d.any (fun p => p.1 == kv.1) then
      d.map (fun p => if p.1 == kv.1 then kv else p)
    else d ++ [kv]

/-- The `as_completed` loop of `get_latest_n_blocks`, iterating completed
futures in completion order: each result is merged into the dict, and every
tenth iteration (and the final one) the progress print evaluates
`list(block_data.keys())[0]`, which raises `IndexError` when that result was
the empty dict. -/
def collectBlocks (fetch : Int → Except PyErr (Option (Int × BlockJson)))
    (total : Nat) :
    List Int → Nat → List (Int × BlockJson) → Except PyErr (List (Int × BlockJson))
  | [], _, acc => .ok acc
  | h :: rest, i, acc =>
    match fetch h with
    | .error e => .error e
    | .ok bd =>
      let acc2 := dictUpdate acc bd
      if (i + 1) % 10 == 0 || i + 1 == total then
        match bd with
        | none => .error .indexErr
        | some _ => collectBlocks fetch total rest (i + 1) acc2
      else collectBlocks fetch total rest (i + 1) acc2

/-- Lines 82-86 of the fetch script: clamp the requested count to
`latest_block_height + 1`, with a warning when clamping occurred. -/
def clampWarn (n H : Nat) : Nat × Bool :=
  if n > H + 1 then (H + 1, true) else (n, false)

/-- Result of a `get_latest_n_blocks` run: the height-keyed blocks mapping,
the list of heights submitted to the pool, and whether the clamping warning
was printed. -/
structure FetchResult where
  blocks : List (Int × BlockJson)
  submitted : List Int
  warned : Bool
deriving DecidableEq, Repr

/-- `get_latest_n_blocks`: query the chain height (returning `{}` with no
submitted work when it is unavailable), clamp the requested count, submit
`latest_block_height - i` for `i < n`, and run the collection loop over the
completion order `order` (a permutation of the submitted heights). -/
def get_latest_n_blocks (env : NexaEnv) (n : Nat) (order : List Int) :
    Except PyErr FetchResult :=
  match get_latest_block_height env with
  | .error e => .error e
  | .ok none => .ok ⟨[], [], false⟩
  | .ok (some H) =>
    let nw := clampWarn n H
    let block_heights :=
      (List.range nw.1).map (fun i : Nat => (H : Int) - (i : Int))
    match collectBlocks (get_block_data env) block_heights.length order 0 [] with
    | .error e => .error e
    | .ok d => .ok ⟨d, block_heights, nw.2⟩

/-- `pat` is a prefix of the character list. -/
def isPrefixList : List Char → List Char → Bool
  | [], _ => true
  | _ :: _, [] => false
  | a :: as, b :: bs => a == b && isPrefixList as bs

/-- `pat` occurs as a contiguous sublist of the character list. -/
def containsSub (pat : List Char) : List Char → Bool
  | [] => pat.isEmpty
  | c :: rest => isPrefixList pat (c :: rest) || containsSub pat rest

/-- `sep` occurs as a substring of `s` (Python's `sep in s`). -/
def hasSubstr (sep s : String) : Bool :=
  containsSub sep.data s.data

/-- `get_transaction_data`: fetch `getrawtransaction <txid> 1`; `in` on a
`None` output raises `TypeError`; an output containing `error code: -5`, an
empty output, or a `JSONDecodeError` is soft-skipped (`ok none`); success
returns the parsed record, tagged with the id it was fetched for (the node
returns the JSON of exactly the requested transaction). -/
def get_transaction_data (env : NexaEnv) (txid : String) :
    Except PyErr (Option (String × TxJson)) :=
  match run_command (env.txRes txid) with
  | none => .error .typeErr
  | some out =>
    if hasSubstr "error code: -5" out then .ok none
    else if out = "" then .ok none
    else
      match env.parseTx out with
      | none => .ok none
      | some j => .ok (some (txid, j))

/-- The `as_completed` loop of `get_all_transactions`: append each truthy
per-id result in completion order; an exception from a worker aborts. -/
def collectTxs (fetch : String → Except PyErr (Option (String × TxJson))) :
    List String → Except PyErr (List (String × TxJson))
  | [] => .ok []
  | t :: ts =>
    match fetch t with
    | .error e => .error e
    | .ok r =>
      match collectTxs fetch ts with
      | .error e => .error e
      | .ok rest => .ok (r.toList ++ rest)

/-- Line 107 of the fetch script: all transaction ids referenced across the
fetched blocks, in block order. -/
def blockTxids (blocks_dict : List (Int × BlockJson)) : List String :=
  blocks_dict.flatMap (fun p => p.2.txid)

/-- `get_all_transactions`: fetch every referenced transaction id and collect
the truthy results in completion order `order` (a permutation of the ids). -/
def get_all_transactions (env : NexaEnv) (blocks_dict : List (Int × BlockJson))
    (order : List String) : Except PyErr (List (String × TxJson)) :=
  collectTxs (get_transaction_data env) order

/-- Environment of a run whose chain-height query answers `1`, every hash
lookup answers a non-empty hash, and every block detail parses. -/
def envHappy : NexaEnv where
  countRes := ⟨"1", "", false⟩
  hashRes := fun _ => ⟨"HASH", "", false⟩
  blockRes := fun _ => ⟨"B", "", false⟩
  txRes := fun _ => ⟨"", "", false⟩
  parseBlock := fun _ => some ⟨0, []⟩
  parseTx := fun _ => none

/-- Environment of a run whose chain-height query answers non-digit text. -/
def envBadHeight : NexaEnv where
  countRes := ⟨"abc", "", false⟩
  hashRes := fun _ => ⟨"", "", false⟩
  blockRes := fun _ => ⟨"", "", false⟩
  txRes := fun _ => ⟨"", "", false⟩
  parseBlock := fun _ => none
  parseTx := fun _ => none

/-- Environment of a run at chain height `0` whose single hash lookup fails
(empty stdout, an error message on stderr). -/
def envHashFail : NexaEnv where
  countRes := ⟨"0", "", false⟩
  hashRes := fun _ => ⟨"", "no hash", false⟩
  blockRes := fun _ => ⟨"B", "", false⟩
  txRes := fun _ => ⟨"", "", false⟩
  parseBlock := fun _ => none
  parseTx := fun _ => none

/-- Environment whose transaction lookups answer `error code: -5` for every
id except `"b"`, which parses successfully. -/
def envTx : NexaEnv where
  countRes := ⟨"", "", false⟩
  hashRes := fun _ => ⟨"", "", false⟩
  blockRes := fun _ => ⟨"", "", false⟩
  txRes := fun t => if t = "b" then ⟨"T", "", false⟩
    else ⟨"error code: -5", "", false⟩
  parseBlock := fun _ => none
  parseTx := fun _ => some ⟨"T"⟩


/-!
The processing side (`process_data.py`).  Values in the `sends`/`spends`/
`fee` columns are modelled at the level of `pd.to_numeric(errors='coerce')`:
`NumVal.num q` is a value that coerces to the number `q`, `NumVal.nonNum` one
that coerces to missing (NaN).  Timestamps are epoch seconds
(`pd.to_datetime(..., unit='s')` is injective on them, so we keep the
seconds); `resample('H')` buckets a timestamp by its hour `t / 3600`.
`resample` rows for empty intermediate hours (count 0 / sum 0 / last NaN)
are not represented, as no claim concerns them. -/

/-- A column value as classified by `pd.to_numeric(errors='coerce')`. -/
inductive NumVal where
  | num (q : ℚ)
  | nonNum (s : String)
deriving DecidableEq, Repr

/-- `pd.to_numeric(errors='coerce')` on one value: numbers survive,
non-numeric values become missing. -/
def toNumeric : NumVal → Option ℚ
  | .num q => some q
  | .nonNum _ => none

/-- A block record after `process_block_data`'s column projection
(`height, size, txcount, time, mediantime, difficulty`). -/
structure BlockRec where
  height : Nat
  size : Nat
  txcount : Nat
  time : Nat
  mediantime : Nat
  difficulty : ℚ
deriving DecidableEq, Repr

/-- A transaction record after `process_transaction_data`'s column projection
(`size, locktime, spends, sends, fee, blockindex, blocktime, time,
confirmations`). -/
structure TxRec where
  size : Nat
  locktime : Nat
  spends : NumVal
  sends : NumVal
  fee : NumVal
  blockindex : Nat
  blocktime : Nat
  time : Nat
  confirmations : Nat
deriving DecidableEq, Repr

/-- `process_block_data`: project the block columns (the identity on our
typed records), index by time, and sort ascending by the time index (the
claims use only that the result is a time-sorted permutation, which any of
pandas' sort kinds produces). -/
def process_block_data (block_data : List BlockRec) : List BlockRec :=
  block_data.insertionSort (fun a b => a.time ≤ b.time)

/-- `process_transaction_data`: project the transaction columns (the identity
on our typed records), index by time, and sort ascending by the time index. -/
def process_transaction_data (transaction_data : List TxRec) : List TxRec :=
  transaction_data.insertionSort (fun a b => a.time ≤ b.time)

/-- The hour bucket of `resample('H')` for an epoch-seconds timestamp. -/
def hourBucket (t : Nat) : Nat := t / 3600

/-- Group a list into maximal runs of consecutive elements sharing a key —
on a time-sorted list this is exactly how `resample('H')` partitions the
rows into hour buckets. -/
def groupByKey {α : Type _} (key : α → Nat) : List α → List (Nat × List α)
  | [] => []
  | x :: xs =>
    match groupByKey key xs with
    | [] => [(key x, [x])]
    | (k, g) :: rest =>
      if key x = k then (k, x :: g) :: rest
      else (key x, [x]) :: (k, g) :: rest

/-- Pandas' skipna sum of a column of coerced values: missing entries are
excluded, an all-missing column sums to `0`. -/
def sumNumeric (vs : List NumVal) : ℚ :=
  (vs.filterMap toNumeric).sum

/-- `calculate_hourly_volume_and_fees`: coerce `sends` and `fee` to numeric,
resample to hourly frequency, and sum each column per hour bucket
(`hourly_volume`, `hourly_fees`). -/
def calculate_hourly_volume_and_fees (df : List TxRec) :
    List (Nat × ℚ × ℚ) :=
  (groupByKey (fun t => hourBucket t.time) df).map
    (fun p => (p.1, sumNumeric (p.2.map (fun t => t.sends)),
      sumNumeric (p.2.map (fun t => t.fee))))

/-- `calculate_transactions_per_hour`: resample to hourly frequency and count
the rows of each hour bucket. -/
def calculate_transactions_per_hour (df : List TxRec) : List (Nat × Nat) :=
  (groupByKey (fun t => hourBucket t.time) df).map
    (fun p => (p.1, p.2.length))

/-- `calculate_hourly_closing_difficulty`: resample the `difficulty` column
to hourly frequency and take the last value of each hour bucket. -/
def calculate_hourly_closing_difficulty (df : List BlockRec) :
    List (Nat × ℚ) :=
  (groupByKey (fun b => hourBucket b.time) df).filterMap
    (fun p => (p.2.getLast?).map (fun b => (p.1, b.difficulty)))

/-- Modelled from the spec: the JSON text persisted by `save_block_data` /
`save_transaction_data` and reloaded by `read_json_file` — the serializers
themselves are `pandas.DataFrame.to_json` and `json.dump`/`json.load`,
library code outside this repository, so we model the JSON value tree they
exchange. -/
inductive Json where
  | jnum (q : ℚ)
  | jstr (s : String)
  | jarr (xs : List Json)
  | jobj (fields : List (String × Json))
  | jnull

/-- Modelled from the spec: a coerced column value as it appears in JSON. -/
def encodeNumVal : NumVal → Json
  | .num q => .jnum q
  | .nonNum s => .jstr s

/-- Modelled from the spec: read a coerced column value back from JSON. -/
def decodeNumVal : Json → Option NumVal
  | .jnum q => some (.num q)
  | .jstr s => some (.nonNum s)
  | _ => none

/-- Modelled from the spec: read a natural-number field back from a JSON
number. -/
def decodeNat : Json → Option Nat
  | .jnum q => if q.den = 1 ∧ 0 ≤ q.num then some q.num.toNat else none
  | _ => none

/-- Modelled from the spec: read a numeric field back from a JSON number. -/
def decodeRat : Json → Option ℚ
  | .jnum q => some q
  | _ => none

/-- Modelled from the spec: one block record as persisted in
`nexa_last_blocks.json` (an array of records, one JSON object per block). -/
def encodeBlockRec (b : BlockRec) : Json :=
  .jobj [("height", .jnum b.height), ("size", .jnum b.size),
    ("txcount", .jnum b.txcount), ("time", .jnum b.time),
    ("mediantime", .jnum b.mediantime), ("difficulty", .jnum b.difficulty)]

/-- Modelled from the spec: find a field and read it as a natural number. -/
def lookupNat (fields : List (String × Json)) (name : String) : Option Nat :=
  (fields.lookup name).bind decodeNat

/-- Modelled from the spec: find a field and read it as a number. -/
def lookupRat (fields : List (String × Json)) (name : String) : Option ℚ :=
  (fields.lookup name).bind decodeRat

/-- Modelled from the spec: find a field and read it as a coerced column
value. -/
def lookupNum (fields : List (String × Json)) (name : String) :
    Option NumVal :=
  (fields.lookup name).bind decodeNumVal

/-- Modelled from the spec: reading one block record back from its JSON
object. -/
def decodeBlockRec : Json → Option BlockRec
  | .jobj fields => do
    let height ← lookupNat fields "height"
    let size ← lookupNat fields "size"
    let txcount ← lookupNat fields "txcount"
    let time ← lookupNat fields "time"
    let mediantime ← lookupNat fields "mediantime"
    let difficulty ← lookupRat fields "difficulty"
    pure ⟨height, size, txcount, time, mediantime, difficulty⟩
  | _ => none

/-- Modelled from the spec: one transaction record as persisted in
`nexa_transactions.json`. -/
def encodeTxRec (t : TxRec) : Json :=
  .jobj [("size", .jnum t.size), ("locktime", .jnum t.locktime),
    ("spends", encodeNumVal t.spends), ("sends", encodeNumVal t.sends),
    ("fee", encodeNumVal t.fee), ("blockindex", .jnum t.blockindex),
    ("blocktime", .jnum t.blocktime), ("time", .jnum t.time),
    ("confirmations", .jnum t.confirmations)]

/-- Modelled from the spec: reading one transaction record back from its
JSON object. -/
def decodeTxRec : Json → Option TxRec
  | .jobj fields => do
    let size ← lookupNat fields "size"
    let locktime ← lookupNat fields "locktime"
    let spends ← lookupNum fields "spends"
    let sends ← lookupNum fields "sends"
    let fee ← lookupNum fields "fee"
    let blockindex ← lookupNat fields "blockindex"
    let blocktime ← lookupNat fields "blocktime"
    let time ← lookupNat fields "time"
    let confirmations ← lookupNat fields "confirmations"
    pure ⟨size, locktime, spends, sends, fee, blockindex, blocktime, time,
      confirmations⟩
  | _ => none

/-- Modelled from the spec: `save_block_data` / `save_transaction_data`
serialize a record collection as a JSON array of record objects. -/
def encodeRecords {α : Type _} (enc : α → Json) (l : List α) : Json :=
  .jarr (l.map enc)

/-- Modelled from the spec: decode each element of a persisted array,
failing if any element fails. -/
def decodeEach {α : Type _} (dec : Json → Option α) : List Json → Option (List α)
  | [] => some []
  | j :: js => (dec j).bind fun a => (decodeEach dec js).map (fun l => a :: l)

/-- Modelled from the spec: reloading a persisted JSON array of records. -/
def decodeRecords {α : Type _} (dec : Json → Option α) : Json → Option (List α)
  | .jarr xs => decodeEach dec xs
  | _ => none

/-- C3: `run_command` is claimed to always return a string — the trimmed
stdout, or `""` on failure — including when the process produces neither
stdout nor stderr.  The code contradicts this: with empty stdout, empty
stderr and no exception, the `if`/`elif` chain has no `else`, so the Python
function returns `None` (our `none`), not a string. -/
theorem run_command_silent_returns_none :
    run_command ⟨"", "", false⟩ = none := by decide

/-- C10: when the chain-height query returns a string that is not made of
digits only, `get_latest_n_blocks` returns the empty mapping, with no heights
submitted to the pool and no warning. -/
theorem get_latest_n_blocks_of_nondigit_height (env : NexaEnv) (n : Nat)
    (order : List Int) (s : String)
    (h1 : run_command env.countRes = some s) (h2 : pyIsdigit s = false) :
    get_latest_n_blocks env n order = .ok ⟨[], [], false⟩ := by
  simp [get_latest_n_blocks, get_latest_block_height, h1, h2]

/-- Witness for C10 at a concrete environment whose height query answers
`"abc"`. -/
theorem get_latest_n_blocks_of_nondigit_height_witness :
    get_latest_n_blocks envBadHeight 5 [] = .ok ⟨[], [], false⟩ :=
  get_latest_n_blocks_of_nondigit_height envBadHeight 5 [] "abc"
    (by decide) (by decide)

/-- Characterization of a successful `get_latest_n_blocks` run whose height
query yielded `H`: the submitted heights, the warning flag, and the fact that
the blocks mapping is the output of the collection loop. -/
theorem get_latest_n_blocks_ok_elim (env : NexaEnv) (n : Nat)
    (order : List Int) (H : Nat) (res : FetchResult)
    (hH : get_latest_block_height env = .ok (some H))
    (hres : get_latest_n_blocks env n order = .ok res) :
    res.submitted =
        (List.range (clampWarn n H).1).map
          (fun i : Nat => (H : Int) - (i : Int)) ∧
      res.warned = (clampWarn n H).2 ∧
      collectBlocks (get_block_data env) res.submitted.length order 0 [] =
        .ok res.blocks := by
  unfold get_latest_n_blocks at hres
  rw [hH] at hres
  simp only [] at hres
  split at hres
  · exact absurd hres (by simp)
  · rename_i d hcol
    rw [Except.ok.injEq] at hres
    rw [← hres]
    exact ⟨rfl, rfl, hcol⟩

/-- C1: when the height query yields chain height `H`, requesting `n > H + 1`
blocks sets the warning and submits exactly `H + 1` heights, requesting
`n ≤ H + 1` submits exactly `n` heights with no warning, and in either case
the `i`-th submitted height is `H - i` (so `H, H-1, ..., H-n+1`). -/
theorem get_latest_n_blocks_clamps (env : NexaEnv) (n : Nat) (order : List Int)
    (H : Nat) (res : FetchResult)
    (hH : get_latest_block_height env = .ok (some H))
    (hres : get_latest_n_blocks env n order = .ok res) :
    (n > H + 1 → res.warned = true ∧ res.submitted.length = H + 1) ∧
    (n ≤ H + 1 → res.warned = false ∧ res.submitted.length = n) ∧
    (∀ i, (hi : i < res.submitted.length) →
      res.submitted[i] = (H : Int) - (i : Int)) := by
  obtain ⟨hsub, hwarn, -⟩ :=
    get_latest_n_blocks_ok_elim env n order H res hH hres
  refine ⟨fun hgt => ?_, fun hle => ?_, fun i hi => ?_⟩
  · rw [hwarn, hsub]
    unfold clampWarn
    rw [if_pos hgt]
    exact ⟨rfl, by rw [List.length_map, List.length_range]⟩
  · rw [hwarn, hsub]
    unfold clampWarn
    rw [if_neg (by omega : ¬ n > H + 1)]
    exact ⟨rfl, by rw [List.length_map, List.length_range]⟩
  · rw [hsub] at hi
    simp only [hsub, List.getElem_map, List.getElem_range]

/-- Witness for C1 at chain height `1`, requesting `3` blocks: the run warns
and submits the two available heights `1, 0`. -/
theorem get_latest_n_blocks_clamps_witness :
    FetchResult.warned ⟨[(1, ⟨0, []⟩), (0, ⟨0, []⟩)], [1, 0], true⟩ = true ∧
      (FetchResult.submitted ⟨[(1, ⟨0, []⟩), (0, ⟨0, []⟩)], [1, 0],
          true⟩).length = 1 + 1 :=
  (get_latest_n_blocks_clamps envHappy 3 [1, 0] 1
      ⟨[(1, ⟨0, []⟩), (0, ⟨0, []⟩)], [1, 0], true⟩
      (by decide) (by decide)).1 (by decide)

/-- C4: a failed height is claimed to merely contribute no entry while
`get_latest_n_blocks` completes normally.  The code contradicts this: at
chain height `0` with `n = 1` and a failing hash lookup, the per-height fetch
soft-returns `{}`, but the final progress print then evaluates
`list(block_data.keys())[0]` on that empty dict and raises `IndexError`,
aborting the whole call instead of returning the empty mapping. -/
theorem get_latest_n_blocks_progress_print_crash :
    get_latest_n_blocks envHashFail 1 [0] = .error PyErr.indexErr := by
  decide

theorem dictUpdate_keys_nodup (d : List (Int × BlockJson))
    (bd : Option (Int × BlockJson)) (hd : (d.map Prod.fst).Nodup) :
    ((dictUpdate d bd).map Prod.fst).Nodup := by
  match bd with
  | none => exact hd
  | some kv =>
    simp only [dictUpdate]
    split
    · rename_i hany
      have hkeys : (d.map (fun p => if p.1 == kv.1 then kv else p)).map Prod.fst
          = d.map Prod.fst := by
        rw [List.map_map]
        refine List.map_congr_left (fun p hp => ?_)
        by_cases hpk : p.1 == kv.1
        · simp only [Function.comp_apply, hpk, if_true]
          exact (eq_of_beq hpk).symm
        · simp [Function.comp, hpk]
      rw [hkeys]
      exact hd
    · rename_i hany
      rw [List.map_append]
      rw [List.nodup_append]
      refine ⟨hd, List.nodup_singleton _, fun a ha hb => ?_⟩
      simp only [List.map_cons, List.map_nil, List.mem_singleton] at hb
      subst hb
      rw [List.mem_map] at ha
      obtain ⟨p, hp, hfst⟩ := ha
      exact hany (List.any_eq_true.mpr ⟨p, hp, by simp [hfst]⟩)

theorem collectBlocks_ok_keys_nodup
    (fetch : Int → Except PyErr (Option (Int × BlockJson))) (total : Nat) :
    ∀ (order : List Int) (i : Nat) (acc d : List (Int × BlockJson)),
      (acc.map Prod.fst).Nodup →
      collectBlocks fetch total order i acc = .ok d →
      (d.map Prod.fst).Nodup
  | [], i, acc, d, hacc, hres => by
    simp only [collectBlocks] at hres
    rw [Except.ok.injEq] at hres
    rw [← hres]
    exact hacc
  | h :: rest, i, acc, d, hacc, hres => by
    simp only [collectBlocks] at hres
    split at hres
    · exact absurd hres (by simp)
    · rename_i bd hbd
      split at hres
      · split at hres
        · exact absurd hres (by simp)
        · exact collectBlocks_ok_keys_nodup fetch total rest (i + 1) _ d
            (dictUpdate_keys_nodup acc _ hacc) hres
      · exact collectBlocks_ok_keys_nodup fetch total rest (i + 1) _ d
          (dictUpdate_keys_nodup acc _ hacc) hres

theorem collectTxs_ok_length
    (f : String → Except PyErr (Option (String × TxJson))) :
    ∀ (order : List String) (res : List (String × TxJson)),
      collectTxs f order = .ok res → res.length ≤ order.length
  | [], res, h => by
    simp only [collectTxs] at h
    rw [Except.ok.injEq] at h
    rw [← h]
    exact Nat.le_refl _
  | t :: ts, res, h => by
    simp only [collectTxs] at h
    split at h
    · exact absurd h (by simp)
    · rename_i r hr
      split at h
      · exact absurd h (by simp)
      · rename_i rest hrest
        rw [Except.ok.injEq] at h
        rw [← h, List.length_append, List.length_cons]
        have ih := collectTxs_ok_length f ts rest hrest
        have hr1 : r.toList.length ≤ 1 := by cases r <;> simp
        omega

theorem collectTxs_ok_mem
    (f : String → Except PyErr (Option (String × TxJson))) :
    ∀ (order : List String) (res : List (String × TxJson)),
      collectTxs f order = .ok res →
      ∀ p ∈ res, ∃ t ∈ order, f t = .ok (some p)
  | [], res, h => by
    simp only [collectTxs] at h
    rw [Except.ok.injEq] at h
    rw [← h]
    intro p hp
    exact absurd hp (List.not_mem_nil p)
  | t :: ts, res, h => by
    simp only [collectTxs] at h
    split at h
    · exact absurd h (by simp)
    · rename_i r hr
      split at h
      · exact absurd h (by simp)
      · rename_i rest hrest
        rw [Except.ok.injEq] at h
        rw [← h]
        intro p hp
        rw [List.mem_append] at hp
        rcases hp with hp | hp
        · refine ⟨t, List.mem_cons_self t ts, ?_⟩
          have : r = some p := by
            cases r with
            | none => exact absurd hp (by simp)
            | some q => simp only [Option.toList_some, List.mem_singleton] at hp; rw [hp]
          rw [← this]
          exact hr
        · obtain ⟨u, hu, hfu⟩ := collectTxs_ok_mem f ts rest hrest p hp
          exact ⟨u, List.mem_cons_of_mem t hu, hfu⟩

theorem get_transaction_data_some_fst (env : NexaEnv) (t : String)
    (p : String × TxJson) (h : get_transaction_data env t = .ok (some p)) :
    p.1 = t := by
  unfold get_transaction_data at h
  split at h
  · exact absurd h (by simp)
  · split at h
    · exact absurd h (by simp)
    · split at h
      · exact absurd h (by simp)
      · split at h
        · exact absurd h (by simp)
        · rw [Except.ok.injEq, Option.some.injEq] at h
          rw [← h]

theorem collectTxs_ok_fst_sublist (env : NexaEnv) :
    ∀ (order : List String) (res : List (String × TxJson)),
      collectTxs (get_transaction_data env) order = .ok res →
      (res.map Prod.fst).Sublist order
  | [], res, h => by
    simp only [collectTxs] at h
    rw [Except.ok.injEq] at h
    rw [← h]
    exact List.nil_sublist []
  | t :: ts, res, h => by
    simp only [collectTxs] at h
    split at h
    · exact absurd h (by simp)
    · rename_i r hr
      split at h
      · exact absurd h (by simp)
      · rename_i rest hrest
        rw [Except.ok.injEq] at h
        rw [← h, List.map_append]
        have ih := collectTxs_ok_fst_sublist env ts rest hrest
        cases r with
        | none =>
          simp only [Option.toList_none, List.map_nil, List.nil_append]
          exact ih.cons t
        | some p =>
          have hp : p.1 = t := get_transaction_data_some_fst env t p hr
          simp only [Option.toList_some, List.map_cons, List.map_nil,
            List.singleton_append, hp]
          exact ih.cons₂ t

/-- C7: fetching one block's listed transaction ids yields at most its
declared transaction count (the listed ids being at most the declared count,
as the node guarantees), and an id whose lookup was soft-skipped — output
containing `error code: -5`, empty output, or a JSON parse failure, all the
`ok none` outcomes of `get_transaction_data` — contributes no record. -/
theorem get_all_transactions_le_txcount (env : NexaEnv) (h : Int)
    (j : BlockJson) (order : List String) (res : List (String × TxJson))
    (hperm : order.Perm (blockTxids [(h, j)]))
    (hcnt : j.txid.length ≤ j.txcount)
    (hres : get_all_transactions env [(h, j)] order = .ok res) :
    res.length ≤ j.txcount ∧
      ∀ t : String, get_transaction_data env t = .ok none →
        t ∉ res.map Prod.fst := by
  have htxids : blockTxids [(h, j)] = j.txid := by
    simp [blockTxids]
  constructor
  · have hlen := collectTxs_ok_length (get_transaction_data env) order res hres
    have horder : order.length = j.txid.length := by
      rw [hperm.length_eq, htxids]
    omega
  · intro t hnone hmem
    rw [List.mem_map] at hmem
    obtain ⟨p, hp, hfst⟩ := hmem
    obtain ⟨u, hu, hfu⟩ :=
      collectTxs_ok_mem (get_transaction_data env) order res hres p hp
    have : u = t := by
      rw [← hfst]
      exact (get_transaction_data_some_fst env u p hfu).symm
    rw [this] at hfu
    rw [hnone] at hfu
    exact absurd (by injection hfu) (by simp)

/-- Witness for C7: a block declaring two transactions, one of which is
unindexed (`error code: -5`); the fetched list has one record and the skipped
id is absent. -/
theorem get_all_transactions_le_txcount_witness :
    [("b", (⟨"T"⟩ : TxJson))].length ≤ 2 ∧
      "a" ∉ [("b", (⟨"T"⟩ : TxJson))].map Prod.fst := by
  have h := get_all_transactions_le_txcount envTx 0 ⟨2, ["a", "b"]⟩
    ["a", "b"] [("b", ⟨"T"⟩)] (by decide) (by decide) (by decide)
  exact ⟨h.1, h.2 "a" (by decide)⟩

/-- C9: within one fetch batch, block height is a unique key of the mapping
returned by `get_latest_n_blocks`, and — when the source blocks reference
each transaction id at most once — each id occurs at most once in the list
returned by `get_all_transactions`. -/
theorem fetch_batch_unique_keys :
    (∀ (env : NexaEnv) (n : Nat) (order : List Int) (res : FetchResult),
        get_latest_n_blocks env n order = .ok res →
        (res.blocks.map Prod.fst).Nodup) ∧
    (∀ (env : NexaEnv) (blocks_dict : List (Int × BlockJson))
        (order : List String) (res : List (String × TxJson)),
        (blockTxids blocks_dict).Nodup →
        order.Perm (blockTxids blocks_dict) →
        get_all_transactions env blocks_dict order = .ok res →
        (res.map Prod.fst).Nodup) := by
  constructor
  · intro env n order res hres
    unfold get_latest_n_blocks at hres
    split at hres
    · exact absurd hres (by simp)
    · rw [Except.ok.injEq] at hres
      rw [← hres]
      exact List.nodup_nil
    · simp only [] at hres
      split at hres
      · exact absurd hres (by simp)
      · rename_i d hcol
        rw [Except.ok.injEq] at hres
        rw [← hres]
        exact collectBlocks_ok_keys_nodup _ _ order 0 [] d (by simp) hcol
  · intro env blocks_dict order res htx hperm hres
    have hord : order.Nodup := (hperm.nodup_iff).mpr htx
    exact (collectTxs_ok_fst_sublist env order res hres).nodup hord

/-- Witness for C9: the happy-path two-block batch has distinct height keys,
and the two-id transaction batch has distinct id keys. -/
theorem fetch_batch_unique_keys_witness :
    (([((1 : Int), (⟨0, []⟩ : BlockJson)), (0, ⟨0, []⟩)].map Prod.fst).Nodup) ∧
      (([("b", (⟨"T"⟩ : TxJson))].map Prod.fst).Nodup) := by
  have h := fetch_batch_unique_keys
  exact ⟨h.1 envHappy 3 [1, 0] ⟨[(1, ⟨0, []⟩), (0, ⟨0, []⟩)], [1, 0], true⟩
      (by decide),
    h.2 envTx [(0, ⟨2, ["a", "b"]⟩)] ["a", "b"] [("b", ⟨"T"⟩)]
      (by decide) (by decide) (by decide)⟩

theorem groupByKey_cons_eq {α : Type _} (key : α → Nat) (x : α)
    (xs : List α) :
    groupByKey key (x :: xs) =
      match groupByKey key xs with
      | [] => [(key x, [x])]
      | (k, g) :: rest =>
        if key x = k then (k, x :: g) :: rest
        else (key x, [x]) :: (k, g) :: rest := rfl

theorem groupByKey_cons_ne_nil {α : Type _} (key : α → Nat) (x : α)
    (xs : List α) : groupByKey key (x :: xs) ≠ [] := by
  cases hg : groupByKey key xs with
  | nil => simp [groupByKey, hg]
  | cons p rest =>
    obtain ⟨k, g⟩ := p
    simp only [groupByKey, hg]
    split <;> simp

theorem groupByKey_nil_of_eq_nil {α : Type _} (key : α → Nat) (l : List α)
    (h : groupByKey key l = []) : l = [] := by
  cases l with
  | nil => rfl
  | cons x xs => exact absurd h (groupByKey_cons_ne_nil key x xs)

theorem groupByKey_cons_head {α : Type _} (key : α → Nat) (x : α)
    (xs : List α) :
    ∃ g rest, groupByKey key (x :: xs) = (key x, g) :: rest := by
  cases hg : groupByKey key xs with
  | nil => exact ⟨[x], [], by simp [groupByKey, hg]⟩
  | cons p rest =>
    obtain ⟨k, g⟩ := p
    by_cases hk : key x = k
    · exact ⟨x :: g, rest, by simp [groupByKey, hg, hk]⟩
    · exact ⟨[x], (k, g) :: rest, by simp [groupByKey, hg, hk]⟩

theorem groupByKey_head_key_le {α : Type _} (key : α → Nat) (x : α)
    (xs : List α) (hhead : ∀ y ∈ xs, key x ≤ key y) (k : Nat) (g : List α)
    (rest : List (Nat × List α)) (hg : groupByKey key xs = (k, g) :: rest) :
    key x ≤ k := by
  cases xs with
  | nil => simp [groupByKey] at hg
  | cons y ys =>
    obtain ⟨g2, r2, hr⟩ := groupByKey_cons_head key y ys
    rw [hr] at hg
    simp only [List.cons.injEq, Prod.mk.injEq] at hg
    rw [← hg.1.1]
    exact hhead y (List.mem_cons_self y ys)

theorem groupByKey_head_key_min {α : Type _} (key : α → Nat) (y : α)
    (ys : List α) (hp : (y :: ys).Pairwise (fun a b => key a ≤ key b))
    (k : Nat) (g : List α) (rest : List (Nat × List α))
    (hg : groupByKey key (y :: ys) = (k, g) :: rest) :
    ∀ z ∈ y :: ys, k ≤ key z := by
  obtain ⟨g2, r2, hr⟩ := groupByKey_cons_head key y ys
  rw [hr] at hg
  simp only [List.cons.injEq, Prod.mk.injEq] at hg
  intro z hz
  rcases List.mem_cons.mp hz with hza | hzm
  · rw [← hg.1.1, hza]
  · rw [← hg.1.1]
    exact (List.pairwise_cons.mp hp).1 z hzm

theorem groupByKey_keys_strict {α : Type _} (key : α → Nat) :
    ∀ (l : List α), l.Pairwise (fun a b => key a ≤ key b) →
      (groupByKey key l).Pairwise (fun p q => p.1 < q.1)
  | [], _ => by simp [groupByKey]
  | x :: xs, hs => by
    obtain ⟨hhead, htail⟩ := List.pairwise_cons.mp hs
    have ih := groupByKey_keys_strict key xs htail
    cases hg : groupByKey key xs with
    | nil => simp [groupByKey, hg]
    | cons p rest =>
      obtain ⟨k, g⟩ := p
      rw [hg] at ih
      have hxle : key x ≤ k :=
        groupByKey_head_key_le key x xs hhead k g rest hg
      simp only [groupByKey, hg]
      split
      · rw [List.pairwise_cons] at ih ⊢
        exact ⟨fun q hq => ih.1 q hq, ih.2⟩
      · rename_i hxk
        rw [List.pairwise_cons]
        constructor
        · intro q hq
          rcases List.mem_cons.mp hq with hqe | hqr
          · rw [hqe]
            exact lt_of_le_of_ne hxle hxk
          · exact lt_trans (lt_of_le_of_ne hxle hxk)
              ((List.pairwise_cons.mp ih).1 q hqr)
        · exact ih

theorem groupByKey_eq_filter {α : Type _} (key : α → Nat) :
    ∀ (l : List α), l.Pairwise (fun a b => key a ≤ key b) →
      ∀ p ∈ groupByKey key l, p.2 = l.filter (fun a => key a == p.1)
  | [], _, p, hp => by simp [groupByKey] at hp
  | x :: xs, hs, p, hp => by
    obtain ⟨hhead, htail⟩ := List.pairwise_cons.mp hs
    have ih := groupByKey_eq_filter key xs htail
    cases hg : groupByKey key xs with
    | nil =>
      have hxs : xs = [] := groupByKey_nil_of_eq_nil key xs hg
      subst hxs
      simp only [groupByKey, List.mem_singleton] at hp
      rw [hp]
      simp [List.filter]
    | cons q rest =>
      obtain ⟨k, g⟩ := q
      rw [hg] at ih
      have hstrict := groupByKey_keys_strict key (x :: xs) hs
      simp only [groupByKey, hg] at hp hstrict
      have hxle : key x ≤ k :=
        groupByKey_head_key_le key x xs hhead k g rest hg
      by_cases hxk : key x = k
      · rw [if_pos hxk] at hp hstrict
        rcases List.mem_cons.mp hp with hpe | hpr
        · have hgf : g = xs.filter (fun a => key a == k) := by
            simpa using ih (k, g) (List.mem_cons_self _ _)
          rw [hpe]
          show x :: g = (x :: xs).filter (fun a => key a == k)
          rw [List.filter_cons, if_pos (by simp [hxk]), hgf]
        · have hk_lt : k < p.1 := (List.pairwise_cons.mp hstrict).1 p hpr
          have hne : ¬ ((key x == p.1) = true) := by
            simp only [beq_iff_eq]
            omega
          rw [List.filter_cons, if_neg hne]
          exact ih p (List.mem_cons_of_mem _ hpr)
      · rw [if_neg hxk] at hp hstrict
        have hxlt : key x < k := lt_of_le_of_ne hxle hxk
        rcases List.mem_cons.mp hp with hpe | hpr
        · rw [hpe]
          show [x] = (x :: xs).filter (fun a => key a == key x)
          rw [List.filter_cons, if_pos (by simp)]
          have hnil : xs.filter (fun a => key a == key x) = [] := by
            rw [List.filter_eq_nil_iff]
            intro z hz
            simp only [beq_iff_eq]
            have hzk : k ≤ key z := by
              cases xs with
              | nil => exact absurd hz (List.not_mem_nil z)
              | cons y ys =>
                exact groupByKey_head_key_min key y ys htail k g rest hg z hz
            omega
          rw [hnil]
        · have hfp := ih p hpr
          have hk_le : k ≤ p.1 := by
            have hstrict2 := groupByKey_keys_strict key xs htail
            rw [hg] at hstrict2
            rcases List.mem_cons.mp hpr with hpe2 | hpr2
            · rw [hpe2]
            · exact Nat.le_of_lt ((List.pairwise_cons.mp hstrict2).1 p hpr2)
          have hne : ¬ ((key x == p.1) = true) := by
            simp only [beq_iff_eq]
            omega
          rw [List.filter_cons, if_neg hne]
          exact hfp

theorem groupByKey_const {α : Type _} (key : α → Nat) (h : Nat) :
    ∀ (l : List α), l ≠ [] → (∀ a ∈ l, key a = h) →
      groupByKey key l = [(h, l)]
  | [], hne, _ => absurd rfl hne
  | x :: xs, _, hall => by
    cases xs with
    | nil =>
      have hx := hall x (List.mem_cons_self x [])
      simp [groupByKey, hx]
    | cons y ys =>
      have ih := groupByKey_const key h (y :: ys) (by simp)
        (fun a ha => hall a (List.mem_cons_of_mem x ha))
      have hx := hall x (List.mem_cons_self x (y :: ys))
      rw [groupByKey_cons_eq, ih]
      simp [hx]

theorem groupByKey_exists_of_mem {α : Type _} (key : α → Nat) :
    ∀ (l : List α) (a : α), a ∈ l → ∃ g, (key a, g) ∈ groupByKey key l
  | [], a, ha => absurd ha (List.not_mem_nil a)
  | x :: xs, a, ha => by
    cases hg : groupByKey key xs with
    | nil =>
      have hxs : xs = [] := groupByKey_nil_of_eq_nil key xs hg
      subst hxs
      simp only [List.mem_singleton] at ha
      exact ⟨[x], by simp [groupByKey, ha]⟩
    | cons q rest =>
      obtain ⟨k, g⟩ := q
      rcases List.mem_cons.mp ha with hax | haxs
      · by_cases hxk : key x = k
        · refine ⟨x :: g, ?_⟩
          simp only [groupByKey, hg, if_pos hxk]
          rw [hax, hxk]
          exact List.mem_cons_self _ _
        · refine ⟨[x], ?_⟩
          simp only [groupByKey, hg, if_neg hxk]
          rw [hax]
          exact List.mem_cons_self _ _
      · obtain ⟨g2, hg2⟩ := groupByKey_exists_of_mem key xs a haxs
        rw [hg] at hg2
        rcases List.mem_cons.mp hg2 with he | hr
        · rw [Prod.mk.injEq] at he
          by_cases hxk : key x = k
          · refine ⟨x :: g, ?_⟩
            simp only [groupByKey, hg, if_pos hxk]
            rw [he.1]
            exact List.mem_cons_self _ _
          · refine ⟨g, ?_⟩
            simp only [groupByKey, hg, if_neg hxk]
            rw [he.1]
            exact List.mem_cons_of_mem _ (List.mem_cons_self _ _)
        · by_cases hxk : key x = k
          · refine ⟨g2, ?_⟩
            simp only [groupByKey, hg, if_pos hxk]
            exact List.mem_cons_of_mem _ hr
          · refine ⟨g2, ?_⟩
            simp only [groupByKey, hg, if_neg hxk]
            exact List.mem_cons_of_mem _ (List.mem_cons_of_mem _ hr)

theorem getLast_eq_of_sorted_max {α : Type _} (f : α → Nat) :
    ∀ (l : List α) (b : α), l.Pairwise (fun a c => f a ≤ f c) → b ∈ l →
      (∀ y ∈ l, f y ≤ f b ∧ (f y = f b → y = b)) → l.getLast? = some b
  | [], b, _, hb, _ => absurd hb (List.not_mem_nil b)
  | [a], b, _, hb, _ => by
    simp only [List.mem_singleton] at hb
    rw [hb]
    rfl
  | a :: c :: cs, b, hs, hb, hmax => by
    rw [List.getLast?_cons_cons]
    have htail := (List.pairwise_cons.mp hs).2
    have hmem : b ∈ c :: cs := by
      rcases List.mem_cons.mp hb with hba | hbm
      · have h1 : f a ≤ f c :=
          (List.pairwise_cons.mp hs).1 c (List.mem_cons_self c cs)
        have h2 := hmax c (List.mem_cons_of_mem a (List.mem_cons_self c cs))
        have hcb : f c = f b := by
          have hfb : f b ≤ f c := by rw [hba]; exact h1
          exact Nat.le_antisymm h2.1 hfb
        rw [← h2.2 hcb]
        exact List.mem_cons_self c cs
      · exact hbm
    exact getLast_eq_of_sorted_max f (c :: cs) b htail hmem
      (fun y hy => hmax y (List.mem_cons_of_mem a hy))

theorem process_block_data_perm (l : List BlockRec) :
    (process_block_data l).Perm l :=
  List.perm_insertionSort _ l

theorem process_transaction_data_perm (l : List TxRec) :
    (process_transaction_data l).Perm l :=
  List.perm_insertionSort _ l

theorem process_block_data_sorted_time (l : List BlockRec) :
    (process_block_data l).Pairwise (fun a b => a.time ≤ b.time) := by
  haveI : IsTotal BlockRec (fun a b => a.time ≤ b.time) :=
    ⟨fun a b => Nat.le_total a.time b.time⟩
  haveI : IsTrans BlockRec (fun a b => a.time ≤ b.time) :=
    ⟨fun a b c hab hbc => Nat.le_trans hab hbc⟩
  exact List.sorted_insertionSort _ l

theorem process_transaction_data_sorted_time (l : List TxRec) :
    (process_transaction_data l).Pairwise (fun a b => a.time ≤ b.time) := by
  haveI : IsTotal TxRec (fun a b => a.time ≤ b.time) :=
    ⟨fun a b => Nat.le_total a.time b.time⟩
  haveI : IsTrans TxRec (fun a b => a.time ≤ b.time) :=
    ⟨fun a b c hab hbc => Nat.le_trans hab hbc⟩
  exact List.sorted_insertionSort _ l

theorem process_block_data_sorted_bucket (l : List BlockRec) :
    (process_block_data l).Pairwise
      (fun a b => hourBucket a.time ≤ hourBucket b.time) :=
  (process_block_data_sorted_time l).imp
    (fun h => Nat.div_le_div_right h)

theorem process_transaction_data_sorted_bucket (l : List TxRec) :
    (process_transaction_data l).Pairwise
      (fun a b => hourBucket a.time ≤ hourBucket b.time) :=
  (process_transaction_data_sorted_time l).imp
    (fun h => Nat.div_le_div_right h)

/-- C6: every `(hour, count)` row produced by `calculate_transactions_per_hour`
(after `process_transaction_data`) counts exactly the transaction records
whose timestamp falls in that hour bucket. -/
theorem calculate_transactions_per_hour_counts (txs : List TxRec)
    (h c : Nat)
    (hmem : (h, c) ∈ calculate_transactions_per_hour
      (process_transaction_data txs)) :
    c = (txs.filter (fun t => hourBucket t.time == h)).length := by
  unfold calculate_transactions_per_hour at hmem
  rw [List.mem_map] at hmem
  obtain ⟨p, hp, hpe⟩ := hmem
  rw [Prod.mk.injEq] at hpe
  obtain ⟨h1, h2⟩ := hpe
  have hfil := groupByKey_eq_filter (fun t => hourBucket t.time)
    (process_transaction_data txs)
    (process_transaction_data_sorted_bucket txs) p hp
  rw [← h2, hfil, h1]
  exact ((process_transaction_data_perm txs).filter _).length_eq

/-- Witness for C6: three transactions, two in hour bucket 1 and one in hour
bucket 2; the bucket-1 row counts 2. -/
theorem calculate_transactions_per_hour_counts_witness :
    2 = (([⟨100, 0, .num 1, .num 5, .num 1, 0, 3600, 3601, 1⟩,
        ⟨100, 0, .num 1, .nonNum "x", .num 2, 0, 3600, 3700, 1⟩,
        ⟨100, 0, .num 1, .num 3, .num 1, 0, 7200, 7300, 1⟩] :
        List TxRec).filter (fun t => hourBucket t.time == 1)).length :=
  calculate_transactions_per_hour_counts _ 1 2 (by decide)

/-- C2: for a non-empty set of transactions all in one hour bucket `h`, the
hourly aggregation is the single row whose `hourly_volume` is the sum of the
coerced `sends` values and whose `hourly_fees` is the sum of the coerced
`fee` values, non-numeric entries excluded. -/
theorem calculate_hourly_volume_and_fees_single_window (txs : List TxRec)
    (h : Nat) (hne : txs ≠ [])
    (hall : ∀ t ∈ txs, hourBucket t.time = h) :
    calculate_hourly_volume_and_fees (process_transaction_data txs) =
      [(h, sumNumeric (txs.map (fun t => t.sends)),
        sumNumeric (txs.map (fun t => t.fee)))] := by
  have hperm := process_transaction_data_perm txs
  have hsne : process_transaction_data txs ≠ [] := by
    intro hx
    have hlen := hperm.length_eq
    rw [hx] at hlen
    exact hne (List.length_eq_zero.mp hlen.symm)
  have halls : ∀ t ∈ process_transaction_data txs, hourBucket t.time = h :=
    fun t ht => hall t (hperm.mem_iff.mp ht)
  unfold calculate_hourly_volume_and_fees
  rw [groupByKey_const (fun t => hourBucket t.time) h _ hsne halls]
  simp only [List.map_cons, List.map_nil]
  have hsends : sumNumeric
      ((process_transaction_data txs).map (fun t => t.sends))
      = sumNumeric (txs.map (fun t => t.sends)) := by
    unfold sumNumeric
    exact List.Perm.sum_eq
      (List.Perm.filterMap toNumeric (List.Perm.map _ hperm))
  have hfee : sumNumeric
      ((process_transaction_data txs).map (fun t => t.fee))
      = sumNumeric (txs.map (fun t => t.fee)) := by
    unfold sumNumeric
    exact List.Perm.sum_eq
      (List.Perm.filterMap toNumeric (List.Perm.map _ hperm))
  rw [hsends, hfee]

/-- Witness for C2: two transactions in hour bucket 1, one with a non-numeric
`sends`; the volume sums only the numeric entry and the fees sum both. -/
theorem calculate_hourly_volume_and_fees_single_window_witness :
    calculate_hourly_volume_and_fees (process_transaction_data
        [⟨100, 0, .num 1, .num 5, .num 1, 0, 3600, 3601, 1⟩,
         ⟨100, 0, .num 1, .nonNum "x", .num 2, 0, 3600, 3700, 1⟩]) =
      [(1, 5, 3)] :=
  (calculate_hourly_volume_and_fees_single_window _ 1
    (by decide) (by decide)).trans (by norm_num [sumNumeric, toNumeric,
      List.filterMap_cons, List.filterMap_nil, List.sum_cons, List.sum_nil])

/-- C5: when `b` is the chronologically last block of hour bucket `h` (every
other block of that bucket is strictly earlier), the hourly closing
difficulty assigns `b`'s difficulty to bucket `h`. -/
theorem calculate_hourly_closing_difficulty_last (blocks : List BlockRec)
    (b : BlockRec) (h : Nat) (hb : b ∈ blocks)
    (hbh : hourBucket b.time = h)
    (hmax : ∀ y ∈ blocks, hourBucket y.time = h →
      y.time ≤ b.time ∧ (y.time = b.time → y = b)) :
    (h, b.difficulty) ∈
      calculate_hourly_closing_difficulty (process_block_data blocks) := by
  have hperm := process_block_data_perm blocks
  have hskey := process_block_data_sorted_bucket blocks
  have hstime := process_block_data_sorted_time blocks
  have hbs : b ∈ process_block_data blocks := hperm.mem_iff.mpr hb
  obtain ⟨g, hgmem⟩ := groupByKey_exists_of_mem (fun x => hourBucket x.time)
    (process_block_data blocks) b hbs
  have hfil := groupByKey_eq_filter (fun x => hourBucket x.time)
    (process_block_data blocks) hskey (hourBucket b.time, g) hgmem
  simp only [] at hfil
  have hglast : g.getLast? = some b := by
    apply getLast_eq_of_sorted_max (fun x => x.time) g b
    · rw [hfil]
      exact hstime.filter _
    · rw [hfil]
      exact List.mem_filter.mpr ⟨hbs, by simp⟩
    · intro y hy
      rw [hfil] at hy
      obtain ⟨hys, hyb⟩ := List.mem_filter.mp hy
      have hyk : hourBucket y.time = hourBucket b.time := by
        simpa using hyb
      have hyblocks : y ∈ blocks := hperm.mem_iff.mp hys
      exact hmax y hyblocks (by rw [hyk, hbh])
  unfold calculate_hourly_closing_difficulty
  rw [List.mem_filterMap]
  refine ⟨(hourBucket b.time, g), hgmem, ?_⟩
  simp [hglast, hbh]

/-- Witness for C5: two blocks in hour bucket 1; the later one has
difficulty 7, which is the bucket's closing difficulty. -/
theorem calculate_hourly_closing_difficulty_last_witness :
    ((1 : Nat), (7 : ℚ)) ∈ calculate_hourly_closing_difficulty
      (process_block_data
        [⟨10, 100, 2, 3601, 3500, 5⟩, ⟨11, 100, 2, 3700, 3600, 7⟩]) :=
  calculate_hourly_closing_difficulty_last _ ⟨11, 100, 2, 3700, 3600, 7⟩ 1
    (by decide) (by decide) (by decide)

theorem decodeNat_encode (n : Nat) : decodeNat (Json.jnum n) = some n := by
  simp only [decodeNat]
  rw [if_pos ⟨Rat.den_natCast n,
    by rw [Rat.num_natCast]; exact Int.natCast_nonneg n⟩]
  rw [Rat.num_natCast, Int.toNat_natCast]

theorem decodeNumVal_encode (v : NumVal) :
    decodeNumVal (encodeNumVal v) = some v := by
  cases v <;> rfl

theorem decodeBlockRec_encode (b : BlockRec) :
    decodeBlockRec (encodeBlockRec b) = some b := by
  simp [encodeBlockRec, decodeBlockRec, lookupNat, lookupRat, List.lookup,
    decodeNat_encode, decodeRat]

theorem decodeTxRec_encode (t : TxRec) :
    decodeTxRec (encodeTxRec t) = some t := by
  simp [encodeTxRec, decodeTxRec, lookupNat, lookupNum, List.lookup,
    decodeNat_encode, decodeNumVal_encode]

theorem decodeRecords_encode {α : Type _} (enc : α → Json)
    (dec : Json → Option α) (hrt : ∀ a, dec (enc a) = some a) :
    ∀ l : List α, decodeRecords dec (encodeRecords enc l) = some l := by
  intro l
  simp only [encodeRecords, decodeRecords]
  induction l with
  | nil => rfl
  | cons a l ih =>
    simp [decodeEach, hrt a, ih]

/-- C8: persisting a block collection or a transaction collection as its
JSON array of record objects and reloading it reproduces exactly the same
records (here even in the same order, which implies the claimed set
equality). -/
theorem save_load_roundtrip :
    (∀ bl : List BlockRec,
        decodeRecords decodeBlockRec (encodeRecords encodeBlockRec bl) =
          some bl) ∧
    (∀ txl : List TxRec,
        decodeRecords decodeTxRec (encodeRecords encodeTxRec txl) =
          some txl) :=
  ⟨decodeRecords_encode _ _ decodeBlockRec_encode,
   decodeRecords_encode _ _ decodeTxRec_encode⟩
